import Mathlib

/-!
Verification development for the pdf-to-md reconstruction engine.

This file gives a shallow embedding of the content-reconstruction core of the
repository (the functions `clean_hyphenated_text`, `group_words_to_lines`,
`analyze_font_sizes`, `extract_titles`,
`extract_body_paragraphs_with_footnote_refs`, `extract_footnotes_improved`
from `pdf_to_json_final.py`, and `merge_split_paragraphs` from
`txt_to_json_parser.py`) and proves properties of these definitions.

Modelling conventions:
* Page coordinates and font sizes are modelled as rationals (`ℚ`); the source
  uses Python floats, but every comparison exercised here is far from any
  rounding boundary, so exact rational arithmetic is a faithful model.
* Python's stable `sorted` / `list.sort` on a numeric key is modelled by
  `List.insertionSort`, which is stable and agrees with any stable sort.
* Python strings are modelled by `String` (a list of characters); the `\w` and
  `\s` regex character classes are modelled over the ASCII fragment exercised
  by the document pipeline.
-/

namespace PdfToMd

/-- The regex class `\w` (word character): alphanumeric or underscore
(ASCII fragment of Python's default Unicode `\w`). -/
def isWordChar (c : Char) : Bool := c.isAlphanum || c == '_'

/-- The regex class `\s` (whitespace): Python's `\s` on ASCII is space, tab,
newline, carriage return, vertical tab and form feed. -/
def isSpaceChar (c : Char) : Bool :=
  c == ' ' || c == '\t' || c == '\n' || c == '\r' || c == '\x0b' || c == '\x0c'

/-!
### `clean_hyphenated_text` (pdf_to_json_final.py, lines 100-102)

The source is `re.sub(r'(\w+)-\s+(\w+)', r'\1\2', text)`.  We embed Python's
`re.sub` for this fixed pattern as a left-to-right transducer.  Python `re`
finds leftmost non-overlapping matches and resumes scanning immediately after
each match (the replacement text is not rescanned).  For this pattern greedy
matching coincides with maximal-munch: a `\w+` group always extends to the
maximal word-character run (backtracking cannot help, because a shorter run is
followed by a word character, which is neither `-` nor whitespace), and
likewise for `\s+`.  The transducer states record how much of a potential
match has been seen:
* `start`  : not inside a potential match;
* `word w` : pending maximal word run `w` (candidate group 1);
* `hyph w` : seen `w` followed by `-`;
* `sp w s` : seen `w`, `-`, and pending whitespace run `s`;
* `inMatch`: a match fired (its group-1 text is already emitted); word
  characters now streaming through belong to group 2.
-/

inductive HSt
  | start
  | word (w : List Char)
  | hyph (w : List Char)
  | sp (w s : List Char)
  | inMatch
deriving DecidableEq, Repr

/-- One pass of `re.sub(r'(\w+)-\s+(\w+)', r'\1\2', ·)` over the remaining
input, given the transducer state. -/
def cleanRun : HSt → List Char → List Char
  | HSt.start, [] => []
  | HSt.word w, [] => w
  | HSt.hyph w, [] => w ++ ['-']
  | HSt.sp w s, [] => w ++ '-' :: s
  | HSt.inMatch, [] => []
  | HSt.start, c :: cs =>
    if isWordChar c then cleanRun (HSt.word [c]) cs
    else c :: cleanRun HSt.start cs
  | HSt.word w, c :: cs =>
    if isWordChar c then cleanRun (HSt.word (w ++ [c])) cs
    else if c = '-' then cleanRun (HSt.hyph w) cs
    else w ++ c :: cleanRun HSt.start cs
  | HSt.hyph w, c :: cs =>
    if isSpaceChar c then cleanRun (HSt.sp w [c]) cs
    else if isWordChar c then (w ++ ['-']) ++ cleanRun (HSt.word [c]) cs
    else (w ++ ['-']) ++ c :: cleanRun HSt.start cs
  | HSt.sp w s, c :: cs =>
    if isSpaceChar c then cleanRun (HSt.sp w (s ++ [c])) cs
    else if isWordChar c then w ++ c :: cleanRun HSt.inMatch cs
    else (w ++ '-' :: s) ++ c :: cleanRun HSt.start cs
  | HSt.inMatch, c :: cs =>
    if isWordChar c then c :: cleanRun HSt.inMatch cs
    else c :: cleanRun HSt.start cs

/-- `clean_hyphenated_text` (pdf_to_json_final.py):
`re.sub(r'(\w+)-\s+(\w+)', r'\1\2', text)` — delete a hyphen followed by
whitespace between two word runs, joining the split word. -/
def clean_hyphenated_text (s : String) : String := ⟨cleanRun HSt.start s.data⟩

/-!
### Tokens and `group_words_to_lines` (pdf_to_json_final.py, lines 74-98)
-/

/-- A positioned word token as produced by the external extractor:
`{text, x0, top, size}` (the fields this core reads). -/
structure Word where
  text : String
  x0 : ℚ
  top : ℚ
  size : ℚ
deriving DecidableEq, Repr

/-- Comparison key for `sorted(words, key=lambda w: w['top'])`. -/
def wordTopLe (a b : Word) : Prop := a.top ≤ b.top

instance : DecidableRel wordTopLe := fun a b => inferInstanceAs (Decidable (a.top ≤ b.top))

/-- Comparison key for `sort(key=lambda w: w['x0'])`. -/
def wordXLe (a b : Word) : Prop := a.x0 ≤ b.x0

instance : DecidableRel wordXLe := fun a b => inferInstanceAs (Decidable (a.x0 ≤ b.x0))

/-- `sorted(words, key=lambda w: w['top'])` (stable). -/
def sortByTop (ws : List Word) : List Word := List.insertionSort wordTopLe ws

/-- The accumulation loop of `group_words_to_lines`: `prev` is `last_top`'s
word, `acc` is `current_line` in reverse. -/
def lineChunks (t : ℚ) (prev : Word) (acc : List Word) : List Word → List (List Word)
  | [] => [acc.reverse]
  | w :: ws =>
    if |w.top - prev.top| < t then lineChunks t w (w :: acc) ws
    else acc.reverse :: lineChunks t w [w] ws

/-- `group_words_to_lines(words, y_tolerance)` (pdf_to_json_final.py):
sort tokens by `top`, then accumulate into the current line while the running
token's `top` is within strictly less than `y_tolerance` of the previous
token's `top`. -/
def group_words_to_lines (words : List Word) (y_tolerance : ℚ) : List (List Word) :=
  match sortByTop words with
  | [] => []
  | w :: ws => lineChunks y_tolerance w [w] ws

/-!
### String helpers shared by several extractors
-/

/-- `" ".join(strs)`. -/
def joinSpace (l : List String) : String := String.intercalate " " l

/-- `str.strip()` restricted to the ASCII whitespace the pipeline meets. -/
def stripChars (l : List Char) : List Char :=
  ((l.dropWhile isSpaceChar).reverse.dropWhile isSpaceChar).reverse

/-- `str.strip()`. -/
def pyStrip (s : String) : String := ⟨stripChars s.data⟩

/-- Python's builtin `round` to an integer: round half to even. -/
def pyRound (q : ℚ) : ℤ :=
  let f : ℤ := ⌊q⌋
  let r : ℚ := q - (f : ℚ)
  if r < 1 / 2 then f
  else if 1 / 2 < r then f + 1
  else if f % 2 = 0 then f else f + 1

/-- `str.isdigit()` (ASCII digits): nonempty and all digits. -/
def isDigitStringB (s : String) : Bool := !s.data.isEmpty && s.data.all Char.isDigit

/-- `re.match(r'^(\d+)(.*)', s)`: the (nonempty) leading digit run and the
remainder of the line. -/
def leadingDigits (s : String) : Option (String × String) :=
  match s.data.takeWhile Char.isDigit with
  | [] => none
  | ds => some (⟨ds⟩, ⟨s.data.dropWhile Char.isDigit⟩)

/-- `str.split()` (split on whitespace runs, no empty fields); accumulator
`acc` holds the current field in reverse. -/
def splitWSAux : List Char → List Char → List (List Char)
  | [], acc => if acc.isEmpty then [] else [acc.reverse]
  | c :: cs, acc =>
    if isSpaceChar c then
      if acc.isEmpty then splitWSAux cs [] else acc.reverse :: splitWSAux cs []
    else splitWSAux cs (c :: acc)

/-- `len(s.split())`. -/
def splitCount (s : String) : Nat := (splitWSAux s.data []).length

/-!
### `analyze_font_sizes` (pdf_to_json_final.py, lines 8-72)

The size-grouping loop over the ascending-sorted sizes keeps a
`defaultdict` whose keys are, in insertion order, the first size of each
group; each incoming size joins the first group whose key is within the 0.5
tolerance, else opens a new group keyed (anchored) by itself.  We model the
insertion-ordered dict as an association list of `(anchor, members)` pairs.
-/

/-- One iteration of the grouping loop: `size` joins the first group whose
anchor is within `0.5`, else a new group is appended. -/
def insertSize (groups : List (ℚ × List ℚ)) (s : ℚ) : List (ℚ × List ℚ) :=
  match groups with
  | [] => [(s, [s])]
  | g :: gs =>
    if |s - g.1| ≤ 1 / 2 then (g.1, g.2 ++ [s]) :: gs else g :: insertSize gs s

/-- The `size_groups` dict of `analyze_font_sizes`: sizes sorted ascending and
folded through the grouping loop. -/
def sizeGroups (sizes : List ℚ) : List (ℚ × List ℚ) :=
  (List.insertionSort (· ≤ ·) sizes).foldl insertSize []

/-- `sum(v)/len(v)`: the mean of a group's members. -/
def listAvg (l : List ℚ) : ℚ := l.sum / (l.length : ℚ)

/-- The means of all buckets, in bucket-creation order (`avg_sizes.values()`). -/
def bucketMeans (sizes : List ℚ) : List ℚ :=
  (sizeGroups sizes).map (fun g => listAvg g.2)

/-- `sorted(avg_sizes.items(), key=lambda x: x[1])`, projected to the mean
values (the only component the tier assignment reads). -/
def sortedMeans (sizes : List ℚ) : List ℚ :=
  List.insertionSort (· ≤ ·) (bucketMeans sizes)

/-- The three size tiers derived by `analyze_font_sizes`. -/
structure FontInfo where
  footnote_size : ℚ
  body_size : ℚ
  header_size : ℚ
deriving DecidableEq, Repr

/-- `analyze_font_sizes` (tier-assignment part): `none` models the empty dict
returned when the page has no sized token; otherwise tiers are read off the
mean-sorted bucket list (`sorted_sizes[0]`, `sorted_sizes[-1]`,
`sorted_sizes[len//2]`). -/
def analyze_font_sizes (sizes : List ℚ) : Option FontInfo :=
  if sizes.isEmpty then none
  else
    let l := sortedMeans sizes
    if 3 ≤ l.length then some ⟨l.headD 0, l.getD (l.length / 2) 0, l.getLastD 0⟩
    else if l.length = 2 then some ⟨l.headD 0, l.getD 1 0, l.getD 1 0⟩
    else some ⟨l.headD 0, l.headD 0, l.headD 0⟩

/-!
### `extract_titles` (pdf_to_json_final.py, lines 104-131)
-/

/-- The title-band filter: `word['size'] > 7 and word['top'] < 200`. -/
def titleBand (words : List Word) : List Word :=
  words.filter (fun w => decide (7 < w.size) && decide (w.top < 200))

/-- `group_words.sort(key=lambda w: w['x0'])` (stable). -/
def sortByX (ws : List Word) : List Word := List.insertionSort wordXLe ws

/-- `extract_titles`: filter to the title band, group words by `round(top)`
(an insertion-ordered dict, iterated over `sorted(keys)`), join each group's
words in ascending `x0` order and keep the stripped text when nonempty. -/
def extract_titles (words : List Word) : List String :=
  let tw := titleBand words
  let keys := List.insertionSort (· ≤ ·) ((tw.map (fun w => pyRound w.top)).dedup)
  (keys.map (fun k =>
      pyStrip (joinSpace
        ((sortByX (tw.filter (fun w => decide (pyRound w.top = k)))).map Word.text)))).filter
    (fun t => decide (t ≠ ""))

/-!
### `extract_body_paragraphs_with_footnote_refs` (pdf_to_json_final.py,
lines 147-216)

The word filter keeps tokens with `10.0 <= size <= 11.0` in the band
`70 < top < 400`.  The nested superscript check (`size <= 6.0`, 1-2 digit
text) diverts a token away from `body_words`; under the enclosing
`10.0 <= size` guard it can never fire, which we embed as the conjunction
below (the source would in fact raise `AttributeError` on `str.append` if the
branch were ever reached).
-/

/-- Membership test for `body_words`. -/
def bodyFilter (w : Word) : Bool :=
  (decide ((10 : ℚ) ≤ w.size) && decide (w.size ≤ 11) &&
      decide ((70 : ℚ) < w.top) && decide (w.top < 400)) &&
    !(decide (w.size ≤ 6) && isDigitStringB w.text && decide (w.text.length ≤ 2))

/-- A line record of the paragraph accumulator: `{text, indent, y}`. -/
structure PLine where
  text : String
  indent : ℚ
  y : ℚ
deriving DecidableEq, Repr

/-- `re.match(r'^[A-Z]', s)`. -/
def startsUpperB (s : String) : Bool :=
  match s.data with
  | [] => false
  | c :: _ => c.isUpper

/-- One iteration of the paragraph-grouping loop.  State:
`(body_paragraphs, current_para, first_para)`.  Note the source sets
`first_para = False` only inside the `indent > 90` branch. -/
def paraStep (st : List String × List PLine × Bool) (line : List Word) :
    List String × List PLine × Bool :=
  match line with
  | [] => st
  | fw :: _ =>
    let paras := st.1
    let cur := st.2.1
    let firstp := st.2.2
    let lineText := clean_hyphenated_text (joinSpace (line.map Word.text))
    let indent := fw.x0
    let newFlags : Bool × Bool :=
      if firstp then
        if decide (90 < indent) then (true, false) else (false, firstp)
      else
        if decide (indent ≤ 90) && startsUpperB lineText && decide (2 < splitCount lineText) then
          (true, firstp)
        else (false, firstp)
    let flushed : List String × List PLine :=
      if newFlags.1 && !cur.isEmpty then (paras ++ [joinSpace (cur.map PLine.text)], [])
      else (paras, cur)
    (flushed.1, flushed.2 ++ [⟨lineText, indent, fw.top⟩], newFlags.2)

/-- `extract_body_paragraphs_with_footnote_refs`: filter body words, group
into lines, then run the indentation-driven paragraph loop and flush the
final buffer. -/
def extract_body_paragraphs_with_footnote_refs (words : List Word) : List String :=
  let bodyLines := group_words_to_lines (words.filter bodyFilter) 2
  let st := bodyLines.foldl paraStep ([], [], true)
  if st.2.1.isEmpty then st.1 else st.1 ++ [joinSpace (st.2.1.map PLine.text)]

/-!
### `extract_footnotes_improved` (pdf_to_json_final.py, lines 218-290)
-/

/-- An open footnote accumulator: `{original_id, content, start_y}`. -/
structure OpenFn where
  original_id : String
  content : List String
  start_y : ℚ
deriving DecidableEq, Repr

/-- A finished footnote: `{original_id, source_text}`. -/
structure FnOut where
  original_id : String
  source_text : String
deriving DecidableEq, Repr

/-- `" ".join(word['text'] for word in line)` followed by hyphen repair. -/
def lineTextOf (line : List Word) : String :=
  clean_hyphenated_text (joinSpace (line.map Word.text))

/-- One iteration of the footnote-assembly loop over lines.  State:
`(footnotes, current_footnote)`.  A leading-digit line closes and emits any
open footnote and opens a new one (remainder stripped, empty remainder giving
an empty content list); a continuation line is appended only when its `top`
is strictly within 30 units of the opening line's (the source's redundant
second leading-digit re-check inside that branch is always true and is
omitted). -/
def fnStep (st : List OpenFn × Option OpenFn) (line : List Word) :
    List OpenFn × Option OpenFn :=
  match line with
  | [] => st
  | fw :: _ =>
    let t := lineTextOf line
    match leadingDigits t with
    | some (num, restS) =>
      let c := pyStrip restS
      let nf : OpenFn := ⟨num, if c = "" then [] else [c], fw.top⟩
      match st.2 with
      | some cur => (st.1 ++ [cur], some nf)
      | none => (st.1, some nf)
    | none =>
      match st.2 with
      | some cur =>
        if |fw.top - cur.start_y| < 30 then
          (st.1, some ⟨cur.original_id, cur.content ++ [t], cur.start_y⟩)
        else st
      | none => st

/-- The final-format conversion loop, carrying the emitted list in reverse so
that `result[-1]` is the head: content lines are space-joined, and the
hard-coded patch folds a footnote whose id is `'233'` or `'241'` into an
immediately preceding footnote `'9'`. -/
def fnFinalize : List OpenFn → List FnOut → List FnOut
  | [], acc => acc.reverse
  | fn :: rest, acc =>
    let t := joinSpace fn.content
    match acc with
    | last :: accRest =>
      if (decide (fn.original_id = "233") || decide (fn.original_id = "241")) &&
          decide (last.original_id = "9") then
        fnFinalize rest (⟨last.original_id, last.source_text ++ " " ++ t⟩ :: accRest)
      else fnFinalize rest (⟨fn.original_id, t⟩ :: acc)
    | [] => fnFinalize rest [⟨fn.original_id, t⟩]

/-- `extract_footnotes_improved`: keep words with `top > 450` (the sort by
`top` in the source is subsumed by the sort inside `group_words_to_lines`),
group them into lines, run the assembly loop, flush the open footnote, and
convert to final format. -/
def extract_footnotes_improved (words : List Word) : List FnOut :=
  let lines := group_words_to_lines (words.filter (fun w => decide (450 < w.top))) 2
  let st := lines.foldl fnStep ([], none)
  let fns := match st.2 with
    | some f => st.1 ++ [f]
    | none => st.1
  fnFinalize fns []

/-!
### `merge_split_paragraphs` (txt_to_json_parser.py, lines 171-222)

Content units of the plain-text parser.  The source records a merge note as
the string `"combined by id<n>"`; the model records the absorbed id `n`
itself in the `note` list.
-/

/-- The `type` tag of a content unit. -/
inductive UType
  | title
  | header
  | paragraph
  | footnote
deriving DecidableEq, Repr

/-- A content unit of the plain-text parser. -/
structure CUnit where
  id : Nat
  type : UType
  text : String
  original_id : Option String
  note : List Nat
deriving DecidableEq, Repr

/-- `text and text[0].islower()`. -/
def headLowerB (s : String) : Bool :=
  match s.data with
  | [] => false
  | c :: _ => c.isLower

/-- The merge trigger: the previous unit (in original order) is a footnote and
the current unit is a paragraph whose text starts with a lowercase letter. -/
def shouldMerge (prevu : Option CUnit) (u : CUnit) : Bool :=
  match prevu with
  | none => false
  | some p =>
    decide (p.type = UType.footnote) && decide (u.type = UType.paragraph) && headLowerB u.text

/-- Walk backward from the end of `merged_units` to the nearest prior unit of
type paragraph, append the fragment's text (space-joined) and record its id;
`none` when no prior paragraph exists. -/
def mergeInto (frag : CUnit) : List CUnit → Option (List CUnit)
  | [] => none
  | u :: rest =>
    match mergeInto frag rest with
    | some m => some (u :: m)
    | none =>
      if u.type = UType.paragraph then
        some ({ u with text := u.text ++ " " ++ frag.text, note := u.note ++ [frag.id] } :: rest)
      else none

/-- The main merging loop: `merged` is `merged_units`, `prevu` is
`content_units[i-1]` (the previous unit of the ORIGINAL list, merged away or
not). -/
def mergeGo (merged : List CUnit) (prevu : Option CUnit) : List CUnit → List CUnit
  | [] => merged
  | u :: rest =>
    if shouldMerge prevu u then
      match mergeInto u merged with
      | some m => mergeGo m (some u) rest
      | none => mergeGo (merged ++ [u]) (some u) rest
    else mergeGo (merged ++ [u]) (some u) rest

/-- `merge_split_paragraphs`: lists shorter than 2 are returned unchanged;
otherwise the merging loop runs over the whole unit list. -/
def merge_split_paragraphs (content_units : List CUnit) : List CUnit :=
  if content_units.length < 2 then content_units
  else mergeGo [] none content_units

/-!
### Spec-level definition for the refinement comparison of claim C6

Written from the spec's words, NOT from the source: "sort ascending, and
greedily cluster consecutive sizes whose pairwise difference is ≤ 0.5 units
into one bucket".
-/

/-- Chunking by consecutive difference (`acc` in reverse). -/
def specChunk (prev : ℚ) (acc : List ℚ) : List ℚ → List (List ℚ)
  | [] => [acc.reverse]
  | s :: rest =>
    if |s - prev| ≤ 1 / 2 then specChunk s (s :: acc) rest
    else acc.reverse :: specChunk s [s] rest

/-- Modelled from the spec: the clustering of the ascending-sorted sizes in
which consecutive sizes whose pairwise difference is ≤ 0.5 fall into the same
bucket. -/
def specConsecutiveClusters (sizes : List ℚ) : List (List ℚ) :=
  match List.insertionSort (· ≤ ·) sizes with
  | [] => []
  | s :: rest => specChunk s [s] rest

/-!
## Lemmas about `clean_hyphenated_text`
-/

/-- On hyphen-free input the substitution never fires: the transducer copies
its input (from the states reachable on hyphen-free runs). -/
lemma cleanRun_no_hyphen : ∀ (l : List Char), '-' ∉ l →
    cleanRun HSt.start l = l ∧ (∀ w, cleanRun (HSt.word w) l = w ++ l) ∧
      cleanRun HSt.inMatch l = l := by
  intro l
  induction l with
  | nil => intro _; simp [cleanRun]
  | cons c cs ih =>
    intro hl
    have hc : c ≠ '-' := by
      intro h
      exact hl (h ▸ List.mem_cons_self c cs)
    have hcs : '-' ∉ cs := fun h => hl (List.mem_cons_of_mem _ h)
    obtain ⟨ih1, ih2, ih3⟩ := ih hcs
    by_cases hw : isWordChar c
    · refine ⟨?_, ?_, ?_⟩
      · simp [cleanRun, hw, ih2]
      · intro w
        simp [cleanRun, hw, ih2]
      · simp [cleanRun, hw, ih3]
    · refine ⟨?_, ?_, ?_⟩
      · simp [cleanRun, hw, ih1]
      · intro w
        simp [cleanRun, hw, hc, ih1]
      · simp [cleanRun, hw, ih1]

/-- Runs containing at most one hyphen: either the substitution consumes the
hyphen (and the output is hyphen-free) or nothing fires (and the output, with
the pending state text restored, is the input). -/
lemma cleanRun_single_hyphen : ∀ (l : List Char),
    (l.count '-' ≤ 1 → ('-' ∉ cleanRun HSt.start l ∨ cleanRun HSt.start l = l)) ∧
    (∀ w, '-' ∉ w → l.count '-' ≤ 1 →
      ('-' ∉ cleanRun (HSt.word w) l ∨ cleanRun (HSt.word w) l = w ++ l)) ∧
    (∀ w, '-' ∉ w → '-' ∉ l →
      ('-' ∉ cleanRun (HSt.hyph w) l ∨ cleanRun (HSt.hyph w) l = w ++ '-' :: l)) ∧
    (∀ w s, '-' ∉ w → '-' ∉ s → '-' ∉ l →
      ('-' ∉ cleanRun (HSt.sp w s) l ∨ cleanRun (HSt.sp w s) l = w ++ '-' :: (s ++ l))) := by
  intro l
  induction l with
  | nil =>
    refine ⟨fun _ => Or.inr rfl, fun w _ _ => Or.inr (by simp [cleanRun]),
      fun w _ _ => Or.inr (by simp [cleanRun]), fun w s _ _ _ => Or.inr (by simp [cleanRun])⟩
  | cons c cs ih =>
    obtain ⟨ihStart, ihWord, ihHyph, ihSp⟩ := ih
    have hwordhyph : isWordChar '-' = false := by decide
    have hcount : (c :: cs).count '-' = cs.count '-' + if c = '-' then 1 else 0 := by
      simp [List.count_cons]
    refine ⟨?_, ?_, ?_, ?_⟩
    · -- start state
      intro hone
      by_cases hw : isWordChar c
      · have hc : c ≠ '-' := fun h => by rw [h] at hw; exact absurd hw (by simp [hwordhyph])
        have hone' : cs.count '-' ≤ 1 := by rw [hcount, if_neg hc] at hone; omega
        rcases ihWord [c] (by simp [hc.symm]) hone' with h | h
        · exact Or.inl (by simpa [cleanRun, hw] using h)
        · exact Or.inr (by simp [cleanRun, hw, h])
      · by_cases hc : c = '-'
        · have hz : cs.count '-' = 0 := by rw [hcount, if_pos hc] at hone; omega
          have hnot : '-' ∉ cs := by
            intro hmem
            have := List.count_pos_iff.mpr hmem
            omega
          exact Or.inr (by simp [cleanRun, hw, (cleanRun_no_hyphen cs hnot).1])
        · have hone' : cs.count '-' ≤ 1 := by rw [hcount, if_neg hc] at hone; omega
          rcases ihStart hone' with h | h
          · exact Or.inl (by simp [cleanRun, hw, List.mem_cons, hc]; tauto)
          · exact Or.inr (by simp [cleanRun, hw, h])
    · -- word state
      intro w hwnot hone
      by_cases hw : isWordChar c
      · have hc : c ≠ '-' := fun h => by rw [h] at hw; exact absurd hw (by simp [hwordhyph])
        have hone' : cs.count '-' ≤ 1 := by rw [hcount, if_neg hc] at hone; omega
        rcases ihWord (w ++ [c]) (by simp [hwnot, hc.symm]) hone' with h | h
        · exact Or.inl (by simpa [cleanRun, hw] using h)
        · exact Or.inr (by simp [cleanRun, hw, h])
      · by_cases hc : c = '-'
        · have hz : cs.count '-' = 0 := by rw [hcount, if_pos hc] at hone; omega
          have hnot : '-' ∉ cs := by
            intro hmem
            have := List.count_pos_iff.mpr hmem
            omega
          rcases ihHyph w hwnot hnot with h | h
          · exact Or.inl (by simpa [cleanRun, hw, hc, hwordhyph] using h)
          · exact Or.inr (by simp [cleanRun, hw, hc, hwordhyph, h])
        · have hone' : cs.count '-' ≤ 1 := by rw [hcount, if_neg hc] at hone; omega
          rcases ihStart hone' with h | h
          · refine Or.inl ?_
            simp only [cleanRun, hw, hc, if_false, Bool.false_eq_true, ite_false]
            simp [List.mem_append, List.mem_cons, hc]
            tauto
          · exact Or.inr (by simp [cleanRun, hw, hc, h])
    · -- hyph state
      intro w hwnot hlnot
      have hc : c ≠ '-' := fun h => hlnot (h ▸ List.mem_cons_self c cs)
      have hcs : '-' ∉ cs := fun h => hlnot (List.mem_cons_of_mem _ h)
      by_cases hsp : isSpaceChar c
      · rcases ihSp w [c] hwnot (by simp [hc.symm]) hcs with h | h
        · exact Or.inl (by simpa [cleanRun, hsp] using h)
        · exact Or.inr (by simp [cleanRun, hsp, h])
      · by_cases hw : isWordChar c
        · exact Or.inr (by simp [cleanRun, hsp, hw, (cleanRun_no_hyphen cs hcs).2.1])
        · exact Or.inr (by simp [cleanRun, hsp, hw, (cleanRun_no_hyphen cs hcs).1])
    · -- sp state
      intro w s hwnot hsnot hlnot
      have hc : c ≠ '-' := fun h => hlnot (h ▸ List.mem_cons_self c cs)
      have hcs : '-' ∉ cs := fun h => hlnot (List.mem_cons_of_mem _ h)
      by_cases hsp : isSpaceChar c
      · rcases ihSp w (s ++ [c]) hwnot (by simp [hsnot, hc.symm]) hcs with h | h
        · exact Or.inl (by simpa [cleanRun, hsp] using h)
        · exact Or.inr (by simp [cleanRun, hsp, h])
      · by_cases hw : isWordChar c
        · refine Or.inl ?_
          simp only [cleanRun, hsp, hw, if_true, Bool.false_eq_true, ite_false, if_false]
          rw [(cleanRun_no_hyphen cs hcs).2.2]
          simp [List.mem_append, List.mem_cons, hc]
          tauto
        · exact Or.inr (by simp [cleanRun, hsp, hw, (cleanRun_no_hyphen cs hcs).1])

/-!
## Lemmas about `merge_split_paragraphs`
-/

/-- If no unit of `l` is a paragraph, the backward walk finds nothing. -/
lemma mergeInto_eq_none (frag : CUnit) :
    ∀ (l : List CUnit), (∀ u ∈ l, u.type ≠ UType.paragraph) → mergeInto frag l = none := by
  intro l
  induction l with
  | nil => intro _; rfl
  | cons u rest ih =>
    intro h
    have hrest := ih fun v hv => h v (List.mem_cons_of_mem _ hv)
    simp [mergeInto, hrest, h u (List.mem_cons_self u rest)]

/-- The backward walk updates exactly the nearest prior paragraph: with `p`
the last unit of type paragraph in the list, the fragment's text is appended
to `p` (space-joined) and its id recorded in `p`'s notes. -/
lemma mergeInto_spec (frag p : CUnit) (hp : p.type = UType.paragraph) :
    ∀ (xs ys : List CUnit), (∀ u ∈ ys, u.type ≠ UType.paragraph) →
    mergeInto frag (xs ++ p :: ys) =
      some (xs ++
        { p with text := p.text ++ " " ++ frag.text, note := p.note ++ [frag.id] } :: ys) := by
  intro xs
  induction xs with
  | nil =>
    intro ys hys
    simp [mergeInto, mergeInto_eq_none frag ys hys, hp]
  | cons x xs ih =>
    intro ys hys
    simp [mergeInto, ih ys hys]

/-- The number of occurrences of a value among the ids and among the
concatenated note lists of a unit list. -/
def idCount (l : List CUnit) (a : Nat) : Nat := (l.map CUnit.id).count a

/-- See `idCount`. -/
def noteCount (l : List CUnit) (a : Nat) : Nat := ((l.map CUnit.note).flatten).count a

lemma idCount_append (l₁ l₂ : List CUnit) (a : Nat) :
    idCount (l₁ ++ l₂) a = idCount l₁ a + idCount l₂ a := by
  simp [idCount, List.count_append]

lemma noteCount_append (l₁ l₂ : List CUnit) (a : Nat) :
    noteCount (l₁ ++ l₂) a = noteCount l₁ a + noteCount l₂ a := by
  simp [noteCount, List.count_append]

lemma idCount_cons (u : CUnit) (l : List CUnit) (a : Nat) :
    idCount (u :: l) a = (if u.id = a then 1 else 0) + idCount l a := by
  simp [idCount, List.count_cons]
  omega

lemma noteCount_cons (u : CUnit) (l : List CUnit) (a : Nat) :
    noteCount (u :: l) a = u.note.count a + noteCount l a := by
  simp [noteCount, List.count_append]

/-- Ids of emitted units are unchanged by the backward-walk update, and the
fragment's id is added exactly once to the recorded notes. -/
lemma mergeInto_ids_and_notes (frag : CUnit) :
    ∀ (l m : List CUnit), mergeInto frag l = some m →
      m.map CUnit.id = l.map CUnit.id ∧
        (∀ a, noteCount m a = noteCount l a + List.count a [frag.id]) := by
  intro l
  induction l with
  | nil => intro m h; simp [mergeInto] at h
  | cons u rest ih =>
    intro m h
    simp only [mergeInto] at h
    rcases hrec : mergeInto frag rest with _ | m'
    · rw [hrec] at h
      by_cases hu : u.type = UType.paragraph
      · simp only [hu, if_true, Option.some.injEq, if_pos] at h
        subst h
        refine ⟨by simp, fun a => ?_⟩
        simp only [noteCount_cons, List.count_append]
        omega
      · simp [hu] at h
    · rw [hrec] at h
      obtain ⟨hm1, hm2⟩ := ih m' hrec
      simp only [Option.some.injEq] at h
      subst h
      refine ⟨by simp [hm1], fun a => ?_⟩
      simp only [noteCount_cons, hm2 a]
      omega

/-- The main merging loop conserves ids: every id occurs among the final
emitted ids plus the recorded note ids exactly as often as among the
already-accumulated ids/notes plus the ids of the remaining input (whose
notes are empty). -/
lemma mergeGo_count :
    ∀ (rest : List CUnit) (merged : List CUnit) (prevu : Option CUnit),
      (∀ u ∈ rest, u.note = []) → ∀ (a : Nat),
      idCount (mergeGo merged prevu rest) a + noteCount (mergeGo merged prevu rest) a =
        idCount merged a + noteCount merged a + (rest.map CUnit.id).count a := by
  intro rest
  induction rest with
  | nil => intro merged prevu _ a; simp [mergeGo]
  | cons u rest ih =>
    intro merged prevu hnote a
    have hu : u.note = [] := hnote u (List.mem_cons_self u rest)
    have hrest : ∀ v ∈ rest, v.note = [] := fun v hv => hnote v (List.mem_cons_of_mem _ hv)
    have hcons : ((u :: rest).map CUnit.id).count a =
        (if u.id = a then 1 else 0) + (rest.map CUnit.id).count a := by
      simp [List.count_cons]
      omega
    have happend : ∀ b, idCount (merged ++ [u]) b + noteCount (merged ++ [u]) b =
        idCount merged b + noteCount merged b + (if u.id = b then 1 else 0) := by
      intro b
      simp [idCount_append, noteCount_append, idCount_cons, noteCount_cons, idCount, noteCount, hu,
        List.count_cons]
      omega
    simp only [mergeGo]
    by_cases hm : shouldMerge prevu u
    · rw [if_pos hm]
      rcases hrec : mergeInto u merged with _ | m
      · rw [ih (merged ++ [u]) (some u) hrest a, happend a, hcons]
        omega
      · obtain ⟨hid, hnotes⟩ := mergeInto_ids_and_notes u merged m hrec
        rw [ih m (some u) hrest a, hcons]
        have h1 : idCount m a = idCount merged a := by simp [idCount, hid]
        have h2 := hnotes a
        simp only [List.count_cons, List.count_nil, beq_iff_eq] at h2
        omega
    · rw [if_neg hm]
      rw [ih (merged ++ [u]) (some u) hrest a, happend a, hcons]
      omega

/-- Counting over the whole merge pass: ids plus recorded note ids of the
output match the input ids, given pristine input notes. -/
lemma merge_split_paragraphs_count (units : List CUnit)
    (hnote : ∀ u ∈ units, u.note = []) (a : Nat) :
    idCount (merge_split_paragraphs units) a + noteCount (merge_split_paragraphs units) a =
      (units.map CUnit.id).count a := by
  unfold merge_split_paragraphs
  by_cases hlen : units.length < 2
  · rw [if_pos hlen]
    have hflat : (units.map CUnit.note).flatten = [] := by
      rw [List.flatten_eq_nil_iff]
      intro l hl
      obtain ⟨u, hu, rfl⟩ := List.mem_map.mp hl
      exact hnote u hu
    simp [idCount, noteCount, hflat]
  · rw [if_neg hlen]
    simpa [idCount, noteCount] using mergeGo_count units [] none hnote a

/-!
## Claim theorems
-/

/-- **C2, counterexample.** Hyphenation repair is NOT idempotent: on
`"a- b- c"` one application yields `"ab- c"` (scanning resumes after the
first match, so the second split is not seen), while a second application
yields `"abc"`. -/
theorem c2_hyphen_repair_not_idempotent_cex :
    clean_hyphenated_text (clean_hyphenated_text "a- b- c") ≠
        clean_hyphenated_text "a- b- c" ∧
      clean_hyphenated_text "a- b- c" = "ab- c" ∧
      clean_hyphenated_text (clean_hyphenated_text "a- b- c") = "abc" := by
  refine ⟨by decide, by decide, by decide⟩

/-- **C2, amended.** Hyphenation repair is idempotent on every input
containing at most one hyphen character: applying `clean_hyphenated_text`
twice yields the same result as applying it once.  (The unrestricted claim is
false: repairing one split can juxtapose a new hyphen-whitespace-word
pattern, as in `"a- b- c"`.) -/
theorem c2_hyphen_repair_idempotent_single (s : String) (h : s.data.count '-' ≤ 1) :
    clean_hyphenated_text (clean_hyphenated_text s) = clean_hyphenated_text s := by
  rcases (cleanRun_single_hyphen s.data).1 h with h1 | h1
  · exact congrArg String.mk ((cleanRun_no_hyphen _ h1).1)
  · show String.mk (cleanRun HSt.start (cleanRun HSt.start s.data)) =
      String.mk (cleanRun HSt.start s.data)
    simp only [h1]

/-- Witness for C2's amended theorem at the spec's own example
`"develop- ment"`. -/
theorem c2_hyphen_repair_idempotent_single_witness :
    ("develop- ment" : String).data.count '-' ≤ 1 ∧
      clean_hyphenated_text (clean_hyphenated_text "develop- ment") =
        clean_hyphenated_text "develop- ment" :=
  ⟨by decide, c2_hyphen_repair_idempotent_single "develop- ment" (by decide)⟩

/-- **C1.** Cross-boundary merge rule: a paragraph unit immediately preceded
(in original order) by a footnote unit, whose text is non-empty and begins
with a lowercase letter (`headLowerB`), is absorbed by the merger: its text
is appended (space-joined) to the nearest prior unit of type paragraph in the
output, its id is recorded in that unit's merge-notes list, and the fragment
itself is not emitted (first conjunct, at an arbitrary point of the main
loop); in particular the paragraph-footnote-lowercase-paragraph scenario
yields two output units, not three (second conjunct). -/
theorem c1_cross_boundary_merge :
    (∀ (xs ys rest : List CUnit) (p F L : CUnit),
        p.type = UType.paragraph → (∀ u ∈ ys, u.type ≠ UType.paragraph) →
        F.type = UType.footnote → L.type = UType.paragraph → headLowerB L.text = true →
        mergeGo (xs ++ p :: ys) (some F) (L :: rest) =
          mergeGo
            (xs ++ { p with text := p.text ++ " " ++ L.text, note := p.note ++ [L.id] } :: ys)
            (some L) rest) ∧
    (∀ (P F L : CUnit),
        P.type = UType.paragraph → F.type = UType.footnote → L.type = UType.paragraph →
        headLowerB L.text = true →
        merge_split_paragraphs [P, F, L] =
          [{ P with text := P.text ++ " " ++ L.text, note := P.note ++ [L.id] }, F]) := by
  constructor
  · intro xs ys rest p F L hp hys hF hL hlow
    have hm : shouldMerge (some F) L = true := by simp [shouldMerge, hF, hL, hlow]
    simp only [mergeGo, hm, if_true, mergeInto_spec L p hp xs ys hys]
  · intro P F L hP hF hL hlow
    have h4 : mergeInto L [P, F] = some
        [{ P with text := P.text ++ " " ++ L.text, note := P.note ++ [L.id] }, F] := by
      have := mergeInto_spec L P hP [] [F] (by
        intro u hu
        rw [List.mem_singleton] at hu
        subst hu
        simp [hF])
      simpa using this
    simp only [merge_split_paragraphs]
    rw [if_neg (by simp)]
    simp [mergeGo, shouldMerge, hP, hF, hL, hlow, h4]

/-- Witness for C1 at concrete units. -/
theorem c1_cross_boundary_merge_witness :
    merge_split_paragraphs
        [⟨1, UType.paragraph, "Alpha beta", none, []⟩,
          ⟨2, UType.footnote, "a note", some "1", []⟩,
          ⟨3, UType.paragraph, "gamma delta.", none, []⟩] =
      [⟨1, UType.paragraph, "Alpha beta gamma delta.", none, [3]⟩,
        ⟨2, UType.footnote, "a note", some "1", []⟩] :=
  c1_cross_boundary_merge.2
    ⟨1, UType.paragraph, "Alpha beta", none, []⟩
    ⟨2, UType.footnote, "a note", some "1", []⟩
    ⟨3, UType.paragraph, "gamma delta.", none, []⟩
    rfl rfl rfl (by decide)

/-- **C3.** Merge-note ids are never emitted, and nothing is duplicated or
lost: for input units with distinct ids and pristine (empty) merge-note
lists — as produced by the parser — after the merge pass (1) no id recorded
in any surviving unit's merge-notes is the id of an emitted unit, and (2)
every input unit's id occurs exactly once in total: either emitted once, or
recorded exactly once among the surviving units' merge-notes. -/
theorem c3_merge_note_conservation (units : List CUnit)
    (hnote : ∀ u ∈ units, u.note = [])
    (hids : (units.map CUnit.id).Nodup) :
    (∀ n, n ∈ ((merge_split_paragraphs units).map CUnit.note).flatten →
        n ∉ (merge_split_paragraphs units).map CUnit.id) ∧
    (∀ u ∈ units,
        ((merge_split_paragraphs units).map CUnit.id).count u.id +
          (((merge_split_paragraphs units).map CUnit.note).flatten).count u.id = 1) := by
  constructor
  · intro n hn hmem
    have hkey := merge_split_paragraphs_count units hnote n
    have h1 : 1 ≤ noteCount (merge_split_paragraphs units) n :=
      List.count_pos_iff.mpr hn
    have h2 : 1 ≤ idCount (merge_split_paragraphs units) n :=
      List.count_pos_iff.mpr hmem
    have h3 : (units.map CUnit.id).count n ≤ 1 :=
      List.nodup_iff_count_le_one.mp hids n
    simp only [idCount, noteCount] at hkey h1 h2
    omega
  · intro u hu
    have hkey := merge_split_paragraphs_count units hnote u.id
    have hmem : u.id ∈ units.map CUnit.id := List.mem_map_of_mem CUnit.id hu
    have h1 : (units.map CUnit.id).count u.id = 1 := List.count_eq_one_of_mem hids hmem
    simp only [idCount, noteCount] at hkey
    omega

/-- Witness for C3 at a concrete unit list exercising a merge. -/
theorem c3_merge_note_conservation_witness :
    (∀ n, n ∈ ((merge_split_paragraphs
          [⟨1, UType.paragraph, "Alpha beta", none, []⟩,
            ⟨2, UType.footnote, "a note", some "1", []⟩,
            ⟨3, UType.paragraph, "gamma delta.", none, []⟩]).map CUnit.note).flatten →
        n ∉ (merge_split_paragraphs
          [⟨1, UType.paragraph, "Alpha beta", none, []⟩,
            ⟨2, UType.footnote, "a note", some "1", []⟩,
            ⟨3, UType.paragraph, "gamma delta.", none, []⟩]).map CUnit.id) ∧
    (∀ u ∈ ([⟨1, UType.paragraph, "Alpha beta", none, []⟩,
          ⟨2, UType.footnote, "a note", some "1", []⟩,
          ⟨3, UType.paragraph, "gamma delta.", none, []⟩] : List CUnit),
        ((merge_split_paragraphs
            [⟨1, UType.paragraph, "Alpha beta", none, []⟩,
              ⟨2, UType.footnote, "a note", some "1", []⟩,
              ⟨3, UType.paragraph, "gamma delta.", none, []⟩]).map CUnit.id).count u.id +
          (((merge_split_paragraphs
              [⟨1, UType.paragraph, "Alpha beta", none, []⟩,
                ⟨2, UType.footnote, "a note", some "1", []⟩,
                ⟨3, UType.paragraph, "gamma delta.", none, []⟩]).map CUnit.note).flatten).count
            u.id = 1) :=
  c3_merge_note_conservation _ (by decide) (by decide)

/-- **C4, counterexample.** Content IS silently dropped at the first edge
case of the claim: a footnote-band line (`top > 450`) that does not start
with a leading integer, arriving while no footnote is open, is discarded by
`extract_footnotes_improved` — the word `"orphan"` reaches no output unit,
refuting the claim that all source text on such a line reaches the output. -/
theorem c4_orphan_footnote_line_dropped_cex :
    extract_footnotes_improved [⟨"orphan", 100, 500, 9⟩] = [] := by
  with_unfolding_all decide

/-- **C4, amended.** Of the two edge cases claimed, only the second holds: a
lowercase continuation fragment with no prior paragraph to merge into is kept
as a standalone output unit by the merger (all its text reaches the output);
a footnote-band line with no leading integer and no open footnote, by
contrast, is silently dropped by the footnote extractor
(`c4_orphan_footnote_line_dropped_cex`). -/
theorem c4_lowercase_fragment_kept_without_prior_paragraph (F L : CUnit)
    (hF : F.type = UType.footnote) (hL : L.type = UType.paragraph)
    (hlow : headLowerB L.text = true) :
    merge_split_paragraphs [F, L] = [F, L] := by
  have h4 : mergeInto L [F] = none := by
    refine mergeInto_eq_none L [F] ?_
    intro u hu
    rw [List.mem_singleton] at hu
    subst hu
    simp [hF]
  simp only [merge_split_paragraphs]
  rw [if_neg (by simp)]
  simp [mergeGo, shouldMerge, hF, hL, hlow, h4]

/-- Witness for C4's amended theorem at concrete units. -/
theorem c4_lowercase_fragment_kept_witness :
    merge_split_paragraphs
        [⟨1, UType.footnote, "a note", some "1", []⟩,
          ⟨2, UType.paragraph, "gamma delta.", none, []⟩] =
      [⟨1, UType.footnote, "a note", some "1", []⟩,
        ⟨2, UType.paragraph, "gamma delta.", none, []⟩] :=
  c4_lowercase_fragment_kept_without_prior_paragraph
    ⟨1, UType.footnote, "a note", some "1", []⟩
    ⟨2, UType.paragraph, "gamma delta.", none, []⟩
    rfl rfl (by decide)

/-- **C5** (code-bug evidence).  The source intends to render a very small
(size ≤ 6.0) 1-2 digit token inside the body band inline as a bracketed
marker, but the check sits inside the `10.0 <= size <= 11.0` filter and can
never fire: the superscript token `"7"` is silently dropped, and the
paragraph text contains no `"[7]"` (first conjunct); indeed no token of size
≤ 6 ever enters the body-word stream at all (second conjunct). -/
theorem c5_superscript_marker_dropped :
    extract_body_paragraphs_with_footnote_refs
        [⟨"The", 80, 100, 21 / 2⟩, ⟨"cat", 100, 100, 21 / 2⟩, ⟨"7", 120, 100, 5⟩] =
      ["The cat"] ∧
    (∀ w : Word, w.size ≤ 6 → bodyFilter w = false) := by
  constructor
  · with_unfolding_all decide
  · intro w hw
    have h10 : ¬ (10 : ℚ) ≤ w.size := by linarith
    simp [bodyFilter, h10]

/-- Witness for C5's second conjunct at the superscript token itself. -/
theorem c5_superscript_marker_dropped_witness :
    bodyFilter ⟨"7", 120, 100, 5⟩ = false :=
  c5_superscript_marker_dropped.2 ⟨"7", 120, 100, 5⟩ (by with_unfolding_all decide)

/-!
## Lemmas about `sizeGroups` (claim C6)
-/

lemma insertSize_ne_nil (gs : List (ℚ × List ℚ)) (s : ℚ) : insertSize gs s ≠ [] := by
  cases gs with
  | nil => simp [insertSize]
  | cons g gs =>
    simp only [insertSize]
    split <;> simp

lemma foldl_insertSize_ne_nil : ∀ (l : List ℚ) (gs : List (ℚ × List ℚ)), gs ≠ [] →
    l.foldl insertSize gs ≠ [] := by
  intro l
  induction l with
  | nil => intro gs h; simpa using h
  | cons s l ih => intro gs _; exact ih _ (insertSize_ne_nil gs s)

lemma sizeGroups_ne_nil (sizes : List ℚ) (h : sizes ≠ []) : sizeGroups sizes ≠ [] := by
  unfold sizeGroups
  cases hsort : List.insertionSort (· ≤ ·) sizes with
  | nil =>
    have hp := List.perm_insertionSort (· ≤ ·) sizes
    rw [hsort] at hp
    exact absurd hp.symm.eq_nil h
  | cons a l =>
    simp only [List.foldl_cons]
    exact foldl_insertSize_ne_nil l _ (insertSize_ne_nil [] a)

/-- Each member of a bucket is within the 0.5 tolerance of the bucket's
anchor. -/
lemma insertSize_members (s : ℚ) : ∀ (gs : List (ℚ × List ℚ)),
    (∀ g ∈ gs, ∀ m ∈ g.2, |m - g.1| ≤ 1 / 2) →
    ∀ g ∈ insertSize gs s, ∀ m ∈ g.2, |m - g.1| ≤ 1 / 2 := by
  intro gs
  induction gs with
  | nil =>
    intro _ g hg m hm
    simp only [insertSize, List.mem_singleton] at hg
    subst hg
    simp only [List.mem_singleton] at hm
    subst hm
    simp
  | cons g0 gs ih =>
    intro h g hg
    simp only [insertSize] at hg
    by_cases hc : |s - g0.1| ≤ 1 / 2
    · rw [if_pos hc] at hg
      rcases List.mem_cons.mp hg with rfl | hg'
      · intro m hm
        rcases List.mem_append.mp hm with hm' | hm'
        · exact h g0 (List.mem_cons_self _ _) m hm'
        · rw [List.mem_singleton] at hm'
          subst hm'
          exact hc
      · exact h g (List.mem_cons_of_mem _ hg')
    · rw [if_neg hc] at hg
      rcases List.mem_cons.mp hg with rfl | hg'
      · exact h g (List.mem_cons_self _ _)
      · exact ih (fun g' hg'' => h g' (List.mem_cons_of_mem _ hg'')) g hg'

/-- A bucket's anchor is its first member. -/
lemma insertSize_heads (s : ℚ) : ∀ (gs : List (ℚ × List ℚ)),
    (∀ g ∈ gs, g.2.head? = some g.1) →
    ∀ g ∈ insertSize gs s, g.2.head? = some g.1 := by
  intro gs
  induction gs with
  | nil =>
    intro _ g hg
    simp only [insertSize, List.mem_singleton] at hg
    subst hg
    rfl
  | cons g0 gs ih =>
    intro h g hg
    simp only [insertSize] at hg
    by_cases hc : |s - g0.1| ≤ 1 / 2
    · rw [if_pos hc] at hg
      rcases List.mem_cons.mp hg with rfl | hg'
      · have h0 := h g0 (List.mem_cons_self _ _)
        cases hm : g0.2 with
        | nil => rw [hm] at h0; simp at h0
        | cons x xs =>
          rw [hm] at h0
          simp only [List.head?_cons, Option.some.injEq] at h0
          simp [hm, h0]
      · exact h g (List.mem_cons_of_mem _ hg')
    · rw [if_neg hc] at hg
      rcases List.mem_cons.mp hg with rfl | hg'
      · exact h g (List.mem_cons_self _ _)
      · exact ih (fun g' hg'' => h g' (List.mem_cons_of_mem _ hg'')) g hg'

/-- The anchor list is either unchanged (the size joined an existing bucket)
or extended by the new size, in which case the size was beyond tolerance of
every existing anchor. -/
lemma insertSize_anchors (s : ℚ) : ∀ (gs : List (ℚ × List ℚ)),
    (insertSize gs s).map Prod.fst = gs.map Prod.fst ∨
      ((insertSize gs s).map Prod.fst = gs.map Prod.fst ++ [s] ∧
        ∀ g ∈ gs, ¬ |s - g.1| ≤ 1 / 2) := by
  intro gs
  induction gs with
  | nil => exact Or.inr (by simp [insertSize])
  | cons g0 gs ih =>
    simp only [insertSize]
    by_cases hc : |s - g0.1| ≤ 1 / 2
    · rw [if_pos hc]
      exact Or.inl (by simp)
    · rw [if_neg hc]
      rcases ih with h | ⟨h1, h2⟩
      · exact Or.inl (by simp [h])
      · refine Or.inr ⟨by simp [h1], ?_⟩
        intro g hg
        rcases List.mem_cons.mp hg with rfl | hg'
        · exact hc
        · exact h2 g hg'

/-- Anchors of distinct buckets are pairwise more than 0.5 apart. -/
lemma insertSize_anchors_pairwise (s : ℚ) (gs : List (ℚ × List ℚ))
    (h : (gs.map Prod.fst).Pairwise (fun a b => 1 / 2 < |b - a|)) :
    ((insertSize gs s).map Prod.fst).Pairwise (fun a b => 1 / 2 < |b - a|) := by
  rcases insertSize_anchors s gs with h1 | ⟨h1, h2⟩
  · rw [h1]; exact h
  · rw [h1]
    rw [List.pairwise_append]
    refine ⟨h, List.pairwise_singleton _ _, ?_⟩
    intro a ha b hb
    rw [List.mem_singleton] at hb
    obtain ⟨g, hg, rfl⟩ := List.mem_map.mp ha
    subst hb
    have h3 := h2 g hg
    rw [not_le] at h3
    exact h3

/-- Inserting a size adds it to exactly one bucket's member list. -/
lemma insertSize_flatten_count (s a : ℚ) : ∀ (gs : List (ℚ × List ℚ)),
    (((insertSize gs s).map Prod.snd).flatten).count a =
      ((gs.map Prod.snd).flatten).count a + if s = a then 1 else 0 := by
  intro gs
  induction gs with
  | nil => simp [insertSize, List.count_cons, List.count_singleton]
  | cons g0 gs ih =>
    simp only [insertSize]
    by_cases hc : |s - g0.1| ≤ 1 / 2
    · rw [if_pos hc]
      simp [List.count_append, List.count_cons]
      omega
    · rw [if_neg hc]
      simp only [List.map_cons, List.flatten_cons, List.count_append, ih]
      omega

lemma foldl_insertSize_members : ∀ (l : List ℚ) (gs : List (ℚ × List ℚ)),
    (∀ g ∈ gs, ∀ m ∈ g.2, |m - g.1| ≤ 1 / 2) →
    ∀ g ∈ l.foldl insertSize gs, ∀ m ∈ g.2, |m - g.1| ≤ 1 / 2 := by
  intro l
  induction l with
  | nil => intro gs h; simpa using h
  | cons s l ih => intro gs h; exact ih _ (insertSize_members s gs h)

lemma foldl_insertSize_heads : ∀ (l : List ℚ) (gs : List (ℚ × List ℚ)),
    (∀ g ∈ gs, g.2.head? = some g.1) →
    ∀ g ∈ l.foldl insertSize gs, g.2.head? = some g.1 := by
  intro l
  induction l with
  | nil => intro gs h; simpa using h
  | cons s l ih => intro gs h; exact ih _ (insertSize_heads s gs h)

lemma foldl_insertSize_pairwise : ∀ (l : List ℚ) (gs : List (ℚ × List ℚ)),
    ((gs.map Prod.fst).Pairwise (fun a b => 1 / 2 < |b - a|)) →
    (((l.foldl insertSize gs).map Prod.fst).Pairwise (fun a b => 1 / 2 < |b - a|)) := by
  intro l
  induction l with
  | nil => intro gs h; simpa using h
  | cons s l ih => intro gs h; exact ih _ (insertSize_anchors_pairwise s gs h)

lemma foldl_insertSize_count (a : ℚ) : ∀ (l : List ℚ) (gs : List (ℚ × List ℚ)),
    (((l.foldl insertSize gs).map Prod.snd).flatten).count a =
      ((gs.map Prod.snd).flatten).count a + l.count a := by
  intro l
  induction l with
  | nil => intro gs; simp
  | cons s l ih =>
    intro gs
    simp only [List.foldl_cons, ih, insertSize_flatten_count, List.count_cons]
    by_cases hsa : s = a
    · simp only [hsa, if_pos rfl, beq_self_eq_true, if_true]
      omega
    · simp [hsa]

/-- **C6, counterexample.** The profiler's buckets do NOT equal the
consecutive-difference clustering of the spec: on sorted sizes
10.0, 10.4, 10.8 (consecutive gaps 0.4 ≤ 0.5) the code produces TWO buckets
— 10.8 is compared against the first bucket's anchor 10.0, at distance
0.8 > 0.5 — while the spec's clustering produces one. -/
theorem c6_font_clustering_cex :
    (sizeGroups [10, 52 / 5, 54 / 5]).map Prod.snd ≠
        specConsecutiveClusters [10, 52 / 5, 54 / 5] ∧
      (sizeGroups [10, 52 / 5, 54 / 5]).length = 2 ∧
      (specConsecutiveClusters [10, 52 / 5, 54 / 5]).length = 1 := by
  refine ⟨by with_unfolding_all decide, by with_unfolding_all decide,
    by with_unfolding_all decide⟩

/-- **C6, amended.** The profiler's buckets are the greedy ANCHORED
clustering of the ascending-sorted sizes: scanning in ascending order, each
size joins the first existing bucket whose anchor — the bucket's first
member — is within 0.5 units, else opens a new bucket anchored at itself.
Hence: every input size lands in exactly one bucket (the bucket members are
a permutation of the input), every member is within 0.5 of its bucket's
anchor, anchors of distinct buckets are pairwise more than 0.5 apart, and
each bucket's anchor is its first member.  (Chained consecutive gaps ≤ 0.5
may still split buckets, as in `c6_font_clustering_cex`; member counts and
means are read off these buckets.) -/
theorem c6_font_clustering_anchored (sizes : List ℚ) :
    (((sizeGroups sizes).map Prod.snd).flatten).Perm sizes ∧
    (∀ g ∈ sizeGroups sizes, ∀ m ∈ g.2, |m - g.1| ≤ 1 / 2) ∧
    ((sizeGroups sizes).map Prod.fst).Pairwise (fun a b => 1 / 2 < |b - a|) ∧
    (∀ g ∈ sizeGroups sizes, g.2.head? = some g.1) := by
  refine ⟨?_, ?_, ?_, ?_⟩
  · rw [List.perm_iff_count]
    intro a
    unfold sizeGroups
    rw [foldl_insertSize_count a _ []]
    simp [(List.perm_insertionSort (· ≤ ·) sizes).count_eq]
  · exact foldl_insertSize_members _ [] (by simp)
  · exact foldl_insertSize_pairwise _ [] (by simp)
  · exact foldl_insertSize_heads _ [] (by simp)

/-- Witness for C6's amended theorem at a concrete size list. -/
theorem c6_font_clustering_anchored_witness :
    (((sizeGroups [10, 52 / 5]).map Prod.snd).flatten).Perm [10, 52 / 5] ∧
    (∀ g ∈ sizeGroups [10, 52 / 5], ∀ m ∈ g.2, |m - g.1| ≤ 1 / 2) ∧
    ((sizeGroups [10, 52 / 5]).map Prod.fst).Pairwise (fun a b => 1 / 2 < |b - a|) ∧
    (∀ g ∈ sizeGroups [10, 52 / 5], g.2.head? = some g.1) :=
  c6_font_clustering_anchored [10, 52 / 5]

/-!
## Lemmas about sorted rational lists (claim C7)
-/

lemma sorted_le_head (l : List ℚ) (hs : l.Sorted (· ≤ ·)) :
    ∀ m ∈ l, l.headD 0 ≤ m := by
  cases l with
  | nil => intro m hm; simp at hm
  | cons x xs =>
    intro m hm
    rw [List.headD_cons]
    rcases List.mem_cons.mp hm with rfl | hm'
    · exact le_refl m
    · exact (List.sorted_cons.mp hs).1 m hm'

lemma headD_mem (l : List ℚ) (h : l ≠ []) : l.headD 0 ∈ l := by
  cases l with
  | nil => exact absurd rfl h
  | cons x xs => simp

lemma sorted_le_getLastD : ∀ (l : List ℚ), l.Sorted (· ≤ ·) →
    ∀ m ∈ l, m ≤ l.getLastD 0 := by
  intro l
  induction l with
  | nil => intro _ m hm; simp at hm
  | cons x xs ih =>
    intro hs m hm
    cases xs with
    | nil =>
      rw [List.mem_singleton] at hm
      subst hm
      simp
    | cons y ys =>
      have hd : (x :: y :: ys).getLastD 0 = (y :: ys).getLastD 0 := by
        simp [List.getLastD_cons]
      rw [hd]
      rcases List.mem_cons.mp hm with rfl | hm'
      · have h1 : m ≤ y := (List.sorted_cons.mp hs).1 y (List.mem_cons_self _ _)
        have h2 : y ≤ (y :: ys).getLastD 0 :=
          ih (List.sorted_cons.mp hs).2 y (List.mem_cons_self _ _)
        exact le_trans h1 h2
      · exact ih (List.sorted_cons.mp hs).2 m hm'

lemma getLastD_mem : ∀ (l : List ℚ), l ≠ [] → l.getLastD 0 ∈ l := by
  intro l
  induction l with
  | nil => intro h; exact absurd rfl h
  | cons x xs ih =>
    intro _
    cases xs with
    | nil => simp
    | cons y ys =>
      have hd : (x :: y :: ys).getLastD 0 = (y :: ys).getLastD 0 := by
        simp [List.getLastD_cons]
      rw [hd]
      exact List.mem_cons_of_mem _ (ih (by simp))

lemma sortedMeans_perm (sizes : List ℚ) : (sortedMeans sizes).Perm (bucketMeans sizes) :=
  List.perm_insertionSort _ _

lemma sortedMeans_sorted (sizes : List ℚ) : (sortedMeans sizes).Sorted (· ≤ ·) :=
  List.sorted_insertionSort _ _

lemma bucketMeans_ne_nil (sizes : List ℚ) (h : sizes ≠ []) : bucketMeans sizes ≠ [] := by
  unfold bucketMeans
  simpa using sizeGroups_ne_nil sizes h

lemma sortedMeans_ne_nil (sizes : List ℚ) (h : sizes ≠ []) : sortedMeans sizes ≠ [] := by
  intro hnil
  have hp := sortedMeans_perm sizes
  rw [hnil] at hp
  exact bucketMeans_ne_nil sizes h hp.symm.eq_nil

/-- **C7.** Tier assignment by bucket count, for every non-empty profile:
with bucket means ordered ascending, the footnote size is always the least
bucket mean and the header size the greatest (for ≥ 3 buckets these are the
smallest and largest mean, for 2 buckets the smaller and larger, for 1 bucket
the single mean); the body size is the mean at the middle rank
`count / 2` of the sorted order when there are ≥ 3 buckets, coincides with
the header size when there are exactly 2, and with the footnote size when
there is 1. -/
theorem c7_tier_assignment (sizes : List ℚ) (h : sizes ≠ []) :
    ∃ fi, analyze_font_sizes sizes = some fi ∧
      fi.footnote_size ∈ bucketMeans sizes ∧
      (∀ m ∈ bucketMeans sizes, fi.footnote_size ≤ m) ∧
      fi.header_size ∈ bucketMeans sizes ∧
      (∀ m ∈ bucketMeans sizes, m ≤ fi.header_size) ∧
      (3 ≤ (bucketMeans sizes).length →
        fi.body_size = (sortedMeans sizes).getD ((bucketMeans sizes).length / 2) 0) ∧
      ((bucketMeans sizes).length = 2 → fi.body_size = fi.header_size) ∧
      ((bucketMeans sizes).length = 1 →
        fi.body_size = fi.footnote_size ∧ fi.header_size = fi.footnote_size) := by
  have hempty : sizes.isEmpty = false := by
    cases sizes with
    | nil => exact absurd rfl h
    | cons a l => rfl
  have hp := sortedMeans_perm sizes
  have hlen : (sortedMeans sizes).length = (bucketMeans sizes).length := hp.length_eq
  have hs := sortedMeans_sorted sizes
  have hne := sortedMeans_ne_nil sizes h
  have hmem : ∀ m, m ∈ sortedMeans sizes ↔ m ∈ bucketMeans sizes := fun m => hp.mem_iff
  have hhead_mem : (sortedMeans sizes).headD 0 ∈ bucketMeans sizes :=
    (hmem _).mp (headD_mem _ hne)
  have hhead_min : ∀ m ∈ bucketMeans sizes, (sortedMeans sizes).headD 0 ≤ m :=
    fun m hm => sorted_le_head _ hs m ((hmem m).mpr hm)
  have hlast_mem : (sortedMeans sizes).getLastD 0 ∈ bucketMeans sizes :=
    (hmem _).mp (getLastD_mem _ hne)
  have hlast_max : ∀ m ∈ bucketMeans sizes, m ≤ (sortedMeans sizes).getLastD 0 :=
    fun m hm => sorted_le_getLastD _ hs m ((hmem m).mpr hm)
  simp only [analyze_font_sizes, hempty, Bool.false_eq_true, if_false]
  by_cases h3 : 3 ≤ (sortedMeans sizes).length
  · rw [if_pos h3]
    refine ⟨_, rfl, hhead_mem, hhead_min, hlast_mem, hlast_max, ?_, ?_, ?_⟩
    · intro _
      simp [hlen]
    · intro h2
      omega
    · intro h1
      omega
  · rw [if_neg h3]
    by_cases h2 : (sortedMeans sizes).length = 2
    · rw [if_pos h2]
      obtain ⟨a, b, heq⟩ : ∃ a b, sortedMeans sizes = [a, b] := by
        cases hm : sortedMeans sizes with
        | nil => rw [hm] at h2; simp at h2
        | cons x xs =>
          cases hxs : xs with
          | nil => rw [hm, hxs] at h2; simp at h2
          | cons y ys =>
            cases hys : ys with
            | nil => exact ⟨x, y, rfl⟩
            | cons z zs => rw [hm, hxs, hys] at h2; simp at h2
      rw [heq] at hhead_mem hhead_min hlast_mem hlast_max
      rw [heq]
      have hgetLast : ([a, b].getLastD 0) = b := by simp [List.getLastD_cons]
      rw [hgetLast] at hlast_mem hlast_max
      refine ⟨_, rfl, ?_, ?_, ?_, ?_, ?_, ?_, ?_⟩
      · simpa using hhead_mem
      · simpa using hhead_min
      · simpa using hlast_mem
      · simpa using hlast_max
      · intro h3'
        rw [← hlen] at h3'
        omega
      · intro _
        rfl
      · intro h1
        rw [← hlen] at h1
        omega
    · rw [if_neg h2]
      have h1 : (sortedMeans sizes).length = 1 := by
        have : (sortedMeans sizes).length ≠ 0 := by
          intro h0
          exact hne (List.length_eq_zero.mp h0)
        omega
      obtain ⟨a, heq⟩ : ∃ a, sortedMeans sizes = [a] := by
        cases hm : sortedMeans sizes with
        | nil => rw [hm] at h1; simp at h1
        | cons x xs =>
          cases hxs : xs with
          | nil => exact ⟨x, rfl⟩
          | cons y ys => rw [hm, hxs] at h1; simp at h1
      rw [heq] at hhead_mem hhead_min hlast_mem hlast_max
      rw [heq]
      refine ⟨_, rfl, ?_, ?_, ?_, ?_, ?_, ?_, ?_⟩
      · simpa using hhead_mem
      · simpa using hhead_min
      · simpa using hhead_mem
      · intro m hm
        have h5 := hlast_max m hm
        simpa using h5
      · intro h3'
        rw [← hlen] at h3'
        omega
      · intro _
        rfl
      · intro _
        exact ⟨rfl, rfl⟩

/-- Witness for C7 at a three-bucket size list. -/
theorem c7_tier_assignment_witness :
    ∃ fi, analyze_font_sizes [5, 10, 12] = some fi ∧
      fi.footnote_size ∈ bucketMeans [5, 10, 12] ∧
      (∀ m ∈ bucketMeans [5, 10, 12], fi.footnote_size ≤ m) ∧
      fi.header_size ∈ bucketMeans [5, 10, 12] ∧
      (∀ m ∈ bucketMeans [5, 10, 12], m ≤ fi.header_size) ∧
      (3 ≤ (bucketMeans [5, 10, 12]).length →
        fi.body_size = (sortedMeans [5, 10, 12]).getD ((bucketMeans [5, 10, 12]).length / 2) 0) ∧
      ((bucketMeans [5, 10, 12]).length = 2 → fi.body_size = fi.header_size) ∧
      ((bucketMeans [5, 10, 12]).length = 1 →
        fi.body_size = fi.footnote_size ∧ fi.header_size = fi.footnote_size) :=
  c7_tier_assignment [5, 10, 12] (by decide)

/-!
## Lemmas for `extract_titles` (claim C8)
-/

lemma dedup_const (k : ℤ) : ∀ (l : List ℤ), l ≠ [] → (∀ x ∈ l, x = k) → l.dedup = [k] := by
  intro l
  induction l with
  | nil => intro h _; exact absurd rfl h
  | cons x xs ih =>
    intro _ hall
    have hx : x = k := hall x (List.mem_cons_self _ _)
    subst hx
    cases hxs : xs with
    | nil => simp
    | cons y ys =>
      have hxs' : xs ≠ [] := by rw [hxs]; simp
      have hdx : xs.dedup = [x] := ih hxs' (fun z hz => hall z (List.mem_cons_of_mem _ hz))
      have hymem : x ∈ xs := by
        rw [hxs]
        have hy : y = x := hall y (by
          rw [hxs]
          exact List.mem_cons_of_mem _ (List.mem_cons_self _ _))
        rw [← hy]
        exact List.mem_cons_self _ _
      rw [hxs] at hymem hdx
      rw [List.dedup_cons_of_mem hymem, hdx]

/-- **C8, counterexample.** Two header-tier title-band words whose
y-positions differ by only 0.2 units (well within 1 unit) are emitted as TWO
title units, because the extractor groups by `round(top)` and 100.4 rounds to
100 while 100.6 rounds to 101 — refuting the claim that words within 1 unit
always form a single title. -/
theorem c8_title_unification_cex :
    |(⟨"A", 0, 502 / 5, 8⟩ : Word).top - (⟨"B", 10, 503 / 5, 8⟩ : Word).top| ≤ 1 ∧
      extract_titles [⟨"A", 0, 502 / 5, 8⟩, ⟨"B", 10, 503 / 5, 8⟩] = ["A", "B"] :=
  ⟨by with_unfolding_all decide, by with_unfolding_all decide⟩

/-- **C8, amended.** The title extractor emits one title unit per distinct
ROUNDED y-position among the title-band (size > 7, top < 200) words: whenever
all title-band words on a page round to the same integer y, exactly one
title is emitted, its text the words joined in ascending x-order (stripped);
but y-positions within 1 unit of each other may round to different integers
and then split into several titles (`c8_title_unification_cex`). -/
theorem c8_title_unification_same_round (words : List Word) (k : ℤ)
    (hne : titleBand words ≠ [])
    (hall : ∀ w ∈ titleBand words, pyRound w.top = k)
    (hstrip : pyStrip (joinSpace ((sortByX (titleBand words)).map Word.text)) ≠ "") :
    extract_titles words =
      [pyStrip (joinSpace ((sortByX (titleBand words)).map Word.text))] := by
  have h1 : (titleBand words).map (fun w => pyRound w.top) ≠ [] := by
    simpa using hne
  have h2 : ∀ x ∈ (titleBand words).map (fun w => pyRound w.top), x = k := by
    intro x hx
    obtain ⟨w, hw, rfl⟩ := List.mem_map.mp hx
    exact hall w hw
  have h3 : ((titleBand words).map (fun w => pyRound w.top)).dedup = [k] :=
    dedup_const k _ h1 h2
  have h5 : (titleBand words).filter (fun w => decide (pyRound w.top = k)) = titleBand words := by
    rw [List.filter_eq_self]
    intro w hw
    simp [hall w hw]
  simp only [extract_titles, h3]
  have h4 : List.insertionSort (· ≤ ·) [k] = [k] := rfl
  rw [h4]
  simp only [List.map_cons, List.map_nil, h5]
  rw [List.filter_cons]
  simp [hstrip]

/-- Witness for C8's amended theorem at two words rounding to the same y. -/
theorem c8_title_unification_same_round_witness :
    extract_titles [⟨"One", 0, 100, 8⟩, ⟨"Two", 20, 1003 / 10, 8⟩] =
      [pyStrip (joinSpace
        ((sortByX (titleBand [⟨"One", 0, 100, 8⟩, ⟨"Two", 20, 1003 / 10, 8⟩])).map Word.text))] :=
  c8_title_unification_same_round [⟨"One", 0, 100, 8⟩, ⟨"Two", 20, 1003 / 10, 8⟩] 100
    (by with_unfolding_all decide)
    (by with_unfolding_all decide)
    (by with_unfolding_all decide)

/-- **C9.** Footnote assembly: a line whose (cleaned) text starts with a
leading integer opens a new footnote — the integer becomes `original_id`, the
stripped remainder its first content line (empty remainder giving an empty
content list), and any previously open footnote is emitted first (first
conjunct); a line without a leading integer is appended to the open
footnote's content exactly when its vertical position is strictly within 30
units of the opening line's (second and third conjuncts); content lines are
joined with single spaces on close, so the spec's block `"9 Foo bar baz"`
followed by `"qux."` at Δy = 12 yields one footnote with `original_id = "9"`
and source text `"Foo bar baz qux."` (fourth conjunct). -/
theorem c9_footnote_assembly :
    (∀ (em : List OpenFn) (cur : OpenFn) (w : Word) (ws : List Word) (num restS : String),
        leadingDigits (lineTextOf (w :: ws)) = some (num, restS) →
        fnStep (em, some cur) (w :: ws) =
          (em ++ [cur],
            some ⟨num, if pyStrip restS = "" then [] else [pyStrip restS], w.top⟩)) ∧
    (∀ (em : List OpenFn) (cur : OpenFn) (w : Word) (ws : List Word),
        leadingDigits (lineTextOf (w :: ws)) = none →
        |w.top - cur.start_y| < 30 →
        fnStep (em, some cur) (w :: ws) =
          (em, some ⟨cur.original_id, cur.content ++ [lineTextOf (w :: ws)], cur.start_y⟩)) ∧
    (∀ (em : List OpenFn) (cur : OpenFn) (w : Word) (ws : List Word),
        leadingDigits (lineTextOf (w :: ws)) = none →
        ¬ |w.top - cur.start_y| < 30 →
        fnStep (em, some cur) (w :: ws) = (em, some cur)) ∧
    extract_footnotes_improved
        [⟨"9", 50, 500, 8⟩, ⟨"Foo", 60, 500, 8⟩, ⟨"bar", 80, 500, 8⟩, ⟨"baz", 100, 500, 8⟩,
          ⟨"qux.", 50, 512, 8⟩] =
      [⟨"9", "Foo bar baz qux."⟩] := by
  refine ⟨?_, ?_, ?_, ?_⟩
  · intro em cur w ws num restS h
    simp [fnStep, h]
  · intro em cur w ws h hd
    simp [fnStep, h, hd]
  · intro em cur w ws h hd
    simp [fnStep, h, hd]
  · with_unfolding_all decide

/-- Witness for C9's general conjuncts at a concrete state and line. -/
theorem c9_footnote_assembly_witness :
    fnStep ([], some ⟨"1", ["old"], 460⟩) [⟨"7 x", 50, 470, 8⟩] =
      ([⟨"1", ["old"], 460⟩],
        some ⟨"7", if pyStrip " x" = "" then [] else [pyStrip " x"],
          (⟨"7 x", 50, 470, 8⟩ : Word).top⟩) :=
  c9_footnote_assembly.1 [] ⟨"1", ["old"], 460⟩ ⟨"7 x", 50, 470, 8⟩ [] "7" " x" (by decide)

/-!
## Lemmas about `group_words_to_lines` (claim C10)
-/

lemma lineChunks_flatten (t : ℚ) : ∀ (ws : List Word) (prev : Word) (acc : List Word),
    (lineChunks t prev acc ws).flatten = acc.reverse ++ ws := by
  intro ws
  induction ws with
  | nil => intro prev acc; simp [lineChunks]
  | cons w ws ih =>
    intro prev acc
    simp only [lineChunks]
    by_cases h : |w.top - prev.top| < t
    · rw [if_pos h, ih]
      simp
    · rw [if_neg h]
      simp [ih]

lemma lineChunks_chain (t : ℚ) : ∀ (ws : List Word) (prev : Word) (acc : List Word),
    acc.head? = some prev →
    acc.Chain' (fun a b => |a.top - b.top| < t) →
    ∀ line ∈ lineChunks t prev acc ws, line.Chain' (fun a b => |b.top - a.top| < t) := by
  intro ws
  induction ws with
  | nil =>
    intro prev acc _ hchain line hline
    simp only [lineChunks, List.mem_singleton] at hline
    subst hline
    exact List.chain'_reverse.mpr hchain
  | cons w ws ih =>
    intro prev acc hhead hchain line hline
    simp only [lineChunks] at hline
    by_cases h : |w.top - prev.top| < t
    · rw [if_pos h] at hline
      refine ih w (w :: acc) rfl ?_ line hline
      cases acc with
      | nil => simp at hhead
      | cons a as =>
        have ha : a = prev := by simpa using hhead
        subst ha
        exact List.Chain'.cons h hchain
    · rw [if_neg h] at hline
      rcases List.mem_cons.mp hline with rfl | hline'
      · exact List.chain'_reverse.mpr hchain
      · exact ih w [w] rfl (List.chain'_singleton w) line hline'

lemma lineChunks_head (t : ℚ) : ∀ (ws : List Word) (prev : Word) (acc : List Word) (c : Word),
    acc.getLast? = some c →
    ∃ (l : List Word) (rest : List (List Word)),
      lineChunks t prev acc ws = l :: rest ∧ l.head? = some c := by
  intro ws
  induction ws with
  | nil =>
    intro prev acc c hlast
    exact ⟨acc.reverse, [], rfl, by simpa [List.head?_reverse] using hlast⟩
  | cons w ws ih =>
    intro prev acc c hlast
    simp only [lineChunks]
    by_cases h : |w.top - prev.top| < t
    · rw [if_pos h]
      refine ih w (w :: acc) c ?_
      cases acc with
      | nil => simp at hlast
      | cons a as => simpa [List.getLast?_cons_cons] using hlast
    · rw [if_neg h]
      exact ⟨acc.reverse, _, rfl, by simpa [List.head?_reverse] using hlast⟩

lemma lineChunks_boundary (t : ℚ) : ∀ (ws : List Word) (prev : Word) (acc : List Word),
    acc.head? = some prev →
    (lineChunks t prev acc ws).Chain'
      (fun l1 l2 => ∀ a ∈ l1.getLast?, ∀ b ∈ l2.head?, t ≤ |b.top - a.top|) := by
  intro ws
  induction ws with
  | nil => intro prev acc _; exact List.chain'_singleton _
  | cons w ws ih =>
    intro prev acc hhead
    simp only [lineChunks]
    by_cases h : |w.top - prev.top| < t
    · rw [if_pos h]
      exact ih w (w :: acc) rfl
    · rw [if_neg h]
      obtain ⟨l, rest, heq, hheadl⟩ := lineChunks_head t ws w [w] w rfl
      rw [heq]
      rw [List.chain'_cons']
      constructor
      · intro y hy a ha b hb
        rw [List.head?_cons] at hy
        simp only [Option.mem_def, Option.some.injEq] at hy
        subst hy
        rw [List.getLast?_reverse, hhead] at ha
        rw [hheadl] at hb
        simp only [Option.mem_def, Option.some.injEq] at ha hb
        subst ha
        subst hb
        exact not_lt.mp h
      · have := ih w [w] rfl
        rw [heq] at this
        exact this

/-- **C10.** Line-assembly chaining invariant: `group_words_to_lines`
partitions the top-sorted words into contiguous runs (first conjunct:
flattening the lines restores the sorted word list) such that within each
line every word's top differs from the immediately preceding word's top by
strictly less than the tolerance (second conjunct), and a new line starts
exactly when the gap to the previous word reaches the tolerance (third
conjunct: across a line boundary the gap is ≥ the tolerance).  Membership is
decided only against the previous word, never the line's first: there is an
input (tops 0, 3/2, 3 with tolerance 2) whose single line contains two
words whose tops differ by 2 or more (fourth conjunct). -/
theorem c10_line_grouping (t : ℚ) (words : List Word) :
    (group_words_to_lines words t).flatten = sortByTop words ∧
    (∀ line ∈ group_words_to_lines words t,
        line.Chain' (fun a b => |b.top - a.top| < t)) ∧
    (group_words_to_lines words t).Chain'
      (fun l1 l2 => ∀ a ∈ l1.getLast?, ∀ b ∈ l2.head?, t ≤ |b.top - a.top|) ∧
    (∃ (ws line : List Word) (a b : Word),
        group_words_to_lines ws 2 = [line] ∧ a ∈ line ∧ b ∈ line ∧
          (2 : ℚ) ≤ |b.top - a.top|) := by
  refine ⟨?_, ?_, ?_, ?_⟩
  · cases h : sortByTop words with
    | nil => simp [group_words_to_lines, h]
    | cons w ws =>
      simp only [group_words_to_lines, h]
      rw [lineChunks_flatten]
      simp
  · cases h : sortByTop words with
    | nil => simp [group_words_to_lines, h]
    | cons w ws =>
      simp only [group_words_to_lines, h]
      exact lineChunks_chain t ws w [w] rfl (List.chain'_singleton w)
  · cases h : sortByTop words with
    | nil => simp [group_words_to_lines, h]
    | cons w ws =>
      simp only [group_words_to_lines, h]
      exact lineChunks_boundary t ws w [w] rfl
  · refine ⟨[⟨"x", 0, 0, 10⟩, ⟨"y", 0, 3 / 2, 10⟩, ⟨"z", 0, 3, 10⟩],
      [⟨"x", 0, 0, 10⟩, ⟨"y", 0, 3 / 2, 10⟩, ⟨"z", 0, 3, 10⟩],
      ⟨"x", 0, 0, 10⟩, ⟨"z", 0, 3, 10⟩, ?_, ?_, ?_, ?_⟩
    · with_unfolding_all decide
    · with_unfolding_all decide
    · with_unfolding_all decide
    · with_unfolding_all decide

/-- Witness for C10 at a concrete word list and tolerance. -/
theorem c10_line_grouping_witness :
    (group_words_to_lines [⟨"x", 0, 0, 10⟩, ⟨"y", 0, 5, 10⟩] 2).flatten =
      sortByTop [⟨"x", 0, 0, 10⟩, ⟨"y", 0, 5, 10⟩] :=
  (c10_line_grouping 2 [⟨"x", 0, 0, 10⟩, ⟨"y", 0, 5, 10⟩]).1

end PdfToMd
